import Mathlib

/-!
Verification of the `plpc` Pascal-to-EWVM compiler (repository PL2025,
directory `Projeto_Compilador`) against its natural-language specification.

The Lean definitions below are a shallow embedding of the Python sources:

* `plpc/ewvm.py`       — assembly elements (`Label`, `EWVMStatement`, `Comment`)
  and the code generator `generate_expression_assembly` /
  `generate_statement_assembly` (restricted to the constructs relevant here:
  constants, index-free variable usages, unary and binary operations, and the
  statement forms assign / goto / compound / if / repeat / while / for).
* `plpc/ewvmpeephole.py` — `__optimization_pass` and
  `apply_ewvm_peephole_optimizations`.
* `plpc/symboltable.py`  — the initial scope and `query` / `add`.
* `plpc/typechecker.py`  — `get_binary_operation_type`.
* `plpc/optimizer.py`    — the tuple-rebuilding behaviour of
  `__replace_expressions`.

Modelling conventions, used throughout:

* Python `int` is `Int`, Python `float` is `ℚ` (only exactly representable
  literals such as `0.0` and `2.0` occur in the modelled comparisons).
* Python `==` on statement arguments compares ints and floats numerically
  (`0 == 0.0` is `True`); `EWVMArg.pyEq` implements exactly that.  `Label`
  and `Comment` have no `__eq__` in the source so Python falls back to
  object identity; inside the peephole fixed-point loop identity at equal
  positions coincides with name/content equality because the pass only
  copies label and comment references, and that is how they are modelled.
* Python lists destructured by position (`BeginEndStatement`) are embedded as
  right-nested sequences (`Stmt.seqCons` / `Stmt.seqNil`), and the labelled
  statement tuple `(statement, label)` as the constructor `Stmt.labeled`.
* while-loops are embedded with an explicit fuel argument large enough to be
  unreachable (each iteration of `__optimization_pass` consumes at least one
  element; the fixed-point loop strictly decreases `progMeasure`), so every
  definition is executable by kernel reduction.
-/

namespace PLPC

/-! ## EWVM assembly elements (`ewvm.py`, lines 32-107) -/

/-- Argument of an EWVM statement: `EWVMArgument = int | float | str | Label`.
Floats are embedded as rationals; labels by their name. -/
inductive EWVMArg where
  | int (n : Int)
  | float (q : ℚ)
  | str (s : String)
  | label (name : String)
deriving DecidableEq, Repr

/-- Python `==` on two arguments: numeric values compare across `int`/`float`
(`0 == 0.0` is `True` in Python); strings compare by content; labels have no
`__eq__`, see the header comment. -/
def EWVMArg.pyEq : EWVMArg → EWVMArg → Bool
  | .int a, .int b => decide (a = b)
  | .int a, .float b => decide ((a : ℚ) = b)
  | .float a, .int b => decide (a = (b : ℚ))
  | .float a, .float b => decide (a = b)
  | .str a, .str b => decide (a = b)
  | .label a, .label b => decide (a = b)
  | _, _ => false

/-- `EWVMStatement`: an instruction mnemonic and its argument tuple. -/
structure EWVMStatement where
  instruction : String
  arguments : List EWVMArg
deriving DecidableEq, Repr

/-- Elementwise Python `==` on argument tuples (tuples of distinct length
compare unequal). -/
def argsPyEq : List EWVMArg → List EWVMArg → Bool
  | [], [] => true
  | a :: as, b :: bs => a.pyEq b && argsPyEq as bs
  | _, _ => false

/-- `EWVMStatement.__eq__` (`ewvm.py` lines 92-96): same instruction and
equal argument tuples. -/
def EWVMStatement.pyEq (s t : EWVMStatement) : Bool :=
  s.instruction == t.instruction && argsPyEq s.arguments t.arguments

/-- One element of an `EWVMProgram`: `Label | EWVMStatement | Comment`. -/
inductive EWVMElement where
  | label (name : String)
  | stmt (s : EWVMStatement)
  | comment (content : String)
deriving DecidableEq, Repr

/-- `EWVMProgram = list[Label | EWVMStatement | Comment]`. -/
abbrev EWVMProgram := List EWVMElement

/-- Python `==` on program elements (statements structurally, labels and
comments modelled by name/content, see header). -/
def EWVMElement.pyEq : EWVMElement → EWVMElement → Bool
  | .stmt a, .stmt b => a.pyEq b
  | .label a, .label b => decide (a = b)
  | .comment a, .comment b => decide (a = b)
  | _, _ => false

/-- Python `==` on whole programs (list equality, elementwise). -/
def progPyEq : EWVMProgram → EWVMProgram → Bool
  | [], [] => true
  | a :: as, b :: bs => a.pyEq b && progPyEq as bs
  | _, _ => false

/-! ## Peephole optimizer (`ewvmpeephole.py`) -/

/-- The literal `EWVMStatement('PUSHI', 0)`. -/
def pushi0 : EWVMStatement := ⟨"PUSHI", [.int 0]⟩

/-- The literal `EWVMStatement('PUSHF', 0.0)`. -/
def pushf0 : EWVMStatement := ⟨"PUSHF", [.float 0]⟩

/-- The test at lines 38-39 / 42-43: the statement compares equal to
`PUSHI 0` or to `PUSHF 0.0`. -/
def isZeroStmt (s : EWVMStatement) : Bool :=
  s.pyEq pushi0 || s.pyEq pushf0

/-- A program element that the zero-run counting loop (lines 41-45) does not
break on: a statement equal to `PUSHI 0` or `PUSHF 0.0`.  Labels and comments
compare unequal to any statement, so they stop the run. -/
def isZeroPush : EWVMElement → Bool
  | .stmt s => isZeroStmt s
  | _ => false

/-- Length of the leading zero-push run (the `count` of lines 40-45). -/
def countZeros : List EWVMElement → Nat
  | [] => 0
  | e :: rest => if isZeroPush e then countZeros rest + 1 else 0

/-- Remainder of the program after the leading zero-push run
(the effect of `i += count` at line 52). -/
def skipZeros : List EWVMElement → List EWVMElement
  | [] => []
  | e :: rest => if isZeroPush e then skipZeros rest else e :: rest

/-- Lines 56-59: `STOREL n ; PUSHL n` (resp. `STOREG n ; PUSHG n`) with equal
argument tuples. -/
def isStorePair (cur nxt : EWVMStatement) : Bool :=
  ((cur.instruction == "STOREL" && nxt.instruction == "PUSHL") ||
   (cur.instruction == "STOREG" && nxt.instruction == "PUSHG")) &&
  argsPyEq cur.arguments nxt.arguments

/-- The literal `EWVMStatement('MUL')`. -/
def mulStmt : EWVMStatement := ⟨"MUL", []⟩

/-- The literal `EWVMStatement('FMUL')`. -/
def fmulStmt : EWVMStatement := ⟨"FMUL", []⟩

/-- Lines 66-69: `PUSHI 2` or `PUSHF 2.0` followed by `MUL` or `FMUL`. -/
def isMulPair (cur nxt : EWVMStatement) : Bool :=
  (cur.pyEq ⟨"PUSHI", [.int 2]⟩ || cur.pyEq ⟨"PUSHF", [.float 2]⟩) &&
  (nxt.pyEq mulStmt || nxt.pyEq fmulStmt)

/-- `__optimization_pass` (lines 21-83), with fuel standing for the loop
counter `i` moving through the list: every iteration consumes at least one
element, so any fuel `≥ length` computes the loop's result.  The branch
structure mirrors the source: the zero-run branch needs both `program[i]`
and `program[i+1]` to be statements; a fired zero-run branch excludes the
`STOREL`/`STOREG` `if` and the `PUSHI 2` `elif` (their instruction tests are
disjoint from zero pushes); when nothing fires the element is copied. -/
def optPassF : Nat → List EWVMElement → List EWVMElement
  | _, [] => []
  | 0, p => p
  | _ + 1, [e] => [e]
  | fuel + 1, e :: e2 :: rest =>
    match e, e2 with
    | .stmt cur, .stmt nxt =>
      if isZeroStmt cur then
        (if countZeros (.stmt cur :: .stmt nxt :: rest) = 1 then [.stmt pushi0]
         else [.stmt ⟨"PUSHN", [.int (countZeros (.stmt cur :: .stmt nxt :: rest) : Int)]⟩]) ++
        optPassF fuel (skipZeros (.stmt cur :: .stmt nxt :: rest))
      else if isStorePair cur nxt then
        .stmt ⟨"DUP", [.int 1]⟩ :: .stmt cur :: optPassF fuel rest
      else if isMulPair cur nxt then
        .stmt ⟨"DUP", [.int 1]⟩ ::
          .stmt (if nxt.pyEq mulStmt then ⟨"ADD", []⟩ else ⟨"FADD", []⟩) :: optPassF fuel rest
      else
        .stmt cur :: optPassF fuel (.stmt nxt :: rest)
    | _, _ => e :: optPassF fuel (e2 :: rest)

/-- A single peephole pass over a program (`__optimization_pass`). -/
def optimizationPass (p : EWVMProgram) : EWVMProgram :=
  optPassF p.length p

/-! ### Reflexivity of the Python equality -/

theorem argPyEq_elem_refl_aux (a : EWVMArg) : a.pyEq a = true := by
  cases a <;> simp [EWVMArg.pyEq]

theorem argsPyEq_refl (l : List EWVMArg) : argsPyEq l l = true := by
  induction l with
  | nil => rfl
  | cons a as ih => simp [argsPyEq, argPyEq_elem_refl_aux, ih]

theorem stmtPyEq_refl (s : EWVMStatement) : s.pyEq s = true := by
  simp [EWVMStatement.pyEq, argsPyEq_refl]

theorem elemPyEq_refl (e : EWVMElement) : e.pyEq e = true := by
  cases e <;> simp [EWVMElement.pyEq, stmtPyEq_refl]

theorem progPyEq_refl (p : EWVMProgram) : progPyEq p p = true := by
  induction p with
  | nil => rfl
  | cons e es ih => simp [progPyEq, elemPyEq_refl, ih]

/-! ### A measure that every rewrite of the pass strictly decreases -/

/-- Weight of a statement: positive exactly on the statements that the three
rewrite patterns of `__optimization_pass` consume ( `PUSHF …` counts double so
that normalizing a lone `PUSHF 0.0` to `PUSHI 0` decreases it). -/
def stmtWeight (s : EWVMStatement) : Nat :=
  if s.instruction == "PUSHF" then 2
  else if s.pyEq pushi0 then 1
  else if s.instruction == "PUSHL" || s.instruction == "PUSHG" then 1
  else if s.instruction == "MUL" || s.instruction == "FMUL" then 1
  else 0

/-- Weight of a program element (labels and comments weigh nothing). -/
def elemWeight : EWVMElement → Nat
  | .stmt s => stmtWeight s
  | _ => 0

/-- Sum of the element weights; strictly decreased by every pass that changes
the program, which bounds the iteration count of
`apply_ewvm_peephole_optimizations`. -/
def progMeasure (p : EWVMProgram) : Nat :=
  (p.map elemWeight).sum

theorem progMeasure_nil : progMeasure [] = 0 := rfl

theorem progMeasure_cons (e : EWVMElement) (l : EWVMProgram) :
    progMeasure (e :: l) = elemWeight e + progMeasure l := by
  simp [progMeasure]

theorem progMeasure_append (a b : EWVMProgram) :
    progMeasure (a ++ b) = progMeasure a + progMeasure b := by
  simp [progMeasure]

theorem skipZeros_length_le (l : List EWVMElement) :
    (skipZeros l).length ≤ l.length := by
  induction l with
  | nil => simp [skipZeros]
  | cons e rest ih =>
    by_cases h : isZeroPush e = true
    · simp only [skipZeros, h, if_true]
      exact le_trans ih (Nat.le_succ _)
    · simp [skipZeros, h]

theorem zero_elemWeight_pos (e : EWVMElement) (h : isZeroPush e = true) :
    1 ≤ elemWeight e := by
  cases e with
  | stmt s =>
    simp only [isZeroPush, isZeroStmt, Bool.or_eq_true] at h
    cases h with
    | inl h1 =>
      have hin : s.instruction = "PUSHI" := by
        simp only [EWVMStatement.pyEq, Bool.and_eq_true, beq_iff_eq] at h1
        exact h1.1
      simp [elemWeight, stmtWeight, hin, h1]
    | inr h2 =>
      have hin : s.instruction = "PUSHF" := by
        simp only [EWVMStatement.pyEq, Bool.and_eq_true, beq_iff_eq] at h2
        exact h2.1
      simp [elemWeight, stmtWeight, hin]
  | label _ => simp [isZeroPush] at h
  | comment _ => simp [isZeroPush] at h

theorem measure_skipZeros (l : List EWVMElement) :
    progMeasure (skipZeros l) + countZeros l ≤ progMeasure l := by
  induction l with
  | nil => simp [skipZeros, countZeros, progMeasure_nil]
  | cons e rest ih =>
    by_cases h : isZeroPush e = true
    · simp only [skipZeros, countZeros, h, if_true, progMeasure_cons]
      have := zero_elemWeight_pos e h
      omega
    · simp [skipZeros, countZeros, h]

/-! ### Fuel adequacy: any fuel at least the list length computes the pass -/

theorem optPassF_congr :
    ∀ f g p, p.length ≤ f → p.length ≤ g → optPassF f p = optPassF g p := by
  intro f
  induction f with
  | zero =>
    intro g p hf _
    have : p = [] := by
      cases p with
      | nil => rfl
      | cons a l => simp at hf
    subst this
    cases g <;> simp [optPassF]
  | succ f ih =>
    intro g p hf hg
    cases p with
    | nil => cases g <;> simp [optPassF]
    | cons e tail =>
      cases g with
      | zero => simp at hg
      | succ g =>
        cases tail with
        | nil => simp [optPassF]
        | cons e2 rest =>
          have hrest : rest.length + 1 ≤ f := by
            simp at hf; omega
          have grest : rest.length + 1 ≤ g := by
            simp at hg; omega
          cases e with
          | stmt cur =>
            cases e2 with
            | stmt nxt =>
              by_cases hz : isZeroStmt cur = true
              · have hskip :
                    (skipZeros (.stmt cur :: .stmt nxt :: rest)).length ≤ rest.length + 1 := by
                  have : skipZeros (.stmt cur :: .stmt nxt :: rest) =
                      skipZeros (.stmt nxt :: rest) := by
                    simp [skipZeros, isZeroPush, hz]
                  rw [this]
                  exact skipZeros_length_le _
                simp only [optPassF, hz, if_true]
                rw [ih g (skipZeros (.stmt cur :: .stmt nxt :: rest))
                      (le_trans hskip hrest) (le_trans hskip grest)]
              · by_cases hs : isStorePair cur nxt = true
                · simp only [optPassF, hz, hs, if_true, Bool.false_eq_true, if_false]
                  rw [ih g rest (by omega) (by omega)]
                · by_cases hm : isMulPair cur nxt = true
                  · simp only [optPassF, hz, hs, hm, if_true, Bool.false_eq_true, if_false]
                    rw [ih g rest (by omega) (by omega)]
                  · simp only [optPassF, hz, hs, hm, Bool.false_eq_true, if_false]
                    rw [ih g (.stmt nxt :: rest) (by simpa using hrest) (by simpa using grest)]
            | label n =>
              simp only [optPassF]
              rw [ih g (.label n :: rest) (by simpa using hrest) (by simpa using grest)]
            | comment c =>
              simp only [optPassF]
              rw [ih g (.comment c :: rest) (by simpa using hrest) (by simpa using grest)]
          | label n =>
            simp only [optPassF]
            rw [ih g (e2 :: rest) (by simpa using hrest) (by simpa using grest)]
          | comment c =>
            simp only [optPassF]
            rw [ih g (e2 :: rest) (by simpa using hrest) (by simpa using grest)]

theorem optimizationPass_eq_optPassF (p : EWVMProgram) (f : Nat) (hf : p.length ≤ f) :
    optimizationPass p = optPassF f p :=
  optPassF_congr p.length f p (Nat.le_refl _) hf

/-! ### Weights of the statements produced and consumed by each rewrite -/

theorem stmtWeight_pushn (args : List EWVMArg) : stmtWeight ⟨"PUSHN", args⟩ = 0 := by
  simp [stmtWeight, EWVMStatement.pyEq, pushi0]

theorem stmtWeight_pushi0 : stmtWeight pushi0 = 1 := by decide

theorem storePair_nxt_weight (cur nxt : EWVMStatement) (h : isStorePair cur nxt = true) :
    stmtWeight nxt = 1 := by
  simp only [isStorePair, Bool.and_eq_true, Bool.or_eq_true, beq_iff_eq] at h
  rcases h with ⟨h1 | h1, -⟩ <;>
    simp [stmtWeight, EWVMStatement.pyEq, pushi0, h1.2]

theorem mulPair_nxt_weight (cur nxt : EWVMStatement) (h : isMulPair cur nxt = true) :
    stmtWeight nxt = 1 := by
  simp only [isMulPair, Bool.and_eq_true, Bool.or_eq_true] at h
  rcases h with ⟨-, h1 | h1⟩ <;>
  · simp only [EWVMStatement.pyEq, mulStmt, fmulStmt, Bool.and_eq_true, beq_iff_eq] at h1
    simp [stmtWeight, EWVMStatement.pyEq, pushi0, h1.1]

theorem countZeros_pos (e : EWVMElement) (l : List EWVMElement) (h : isZeroPush e = true) :
    1 ≤ countZeros (e :: l) := by
  simp [countZeros, h]

/-! ### The pass never increases the measure -/

theorem optPassF_le : ∀ f p, p.length ≤ f → progMeasure (optPassF f p) ≤ progMeasure p := by
  intro f
  induction f with
  | zero =>
    intro p hf
    have : p = [] := by
      cases p with
      | nil => rfl
      | cons a l => simp at hf
    subst this
    simp [optPassF]
  | succ f ih =>
    intro p hf
    cases p with
    | nil => simp [optPassF]
    | cons e tail =>
      cases tail with
      | nil => simp [optPassF]
      | cons e2 rest =>
        have hrest : rest.length + 1 ≤ f := by
          simp at hf; omega
        cases e with
        | stmt cur =>
          cases e2 with
          | stmt nxt =>
            by_cases hz : isZeroStmt cur = true
            · have hzp : isZeroPush (.stmt cur) = true := hz
              have hskipeq : skipZeros (.stmt cur :: .stmt nxt :: rest) =
                  skipZeros (.stmt nxt :: rest) := by
                simp [skipZeros, isZeroPush, hz]
              have hskip :
                  (skipZeros (.stmt cur :: .stmt nxt :: rest)).length ≤ rest.length + 1 := by
                rw [hskipeq]; exact skipZeros_length_le _
              have hrec := ih _ (le_trans hskip hrest)
              have hms := measure_skipZeros (.stmt cur :: .stmt nxt :: rest)
              have hn := countZeros_pos (.stmt cur) (.stmt nxt :: rest) hzp
              simp only [optPassF, hz, if_true]
              rw [progMeasure_append]
              by_cases h1 : countZeros (.stmt cur :: .stmt nxt :: rest) = 1
              · simp only [h1, if_true]
                have hw : progMeasure [.stmt pushi0] = 1 := by decide
                omega
              · simp only [h1, if_false]
                have hw : progMeasure [.stmt ⟨"PUSHN",
                    [.int (countZeros (.stmt cur :: .stmt nxt :: rest) : Int)]⟩] = 0 := by
                  simp [progMeasure, elemWeight, stmtWeight_pushn]
                omega
            · by_cases hs : isStorePair cur nxt = true
              · have hrec := ih rest (by omega)
                have hw := storePair_nxt_weight cur nxt hs
                simp only [optPassF, hz, hs, if_true, Bool.false_eq_true, if_false]
                have hdup : elemWeight (.stmt ⟨"DUP", [.int 1]⟩) = 0 := by decide
                simp only [progMeasure_cons, elemWeight, hdup]
                simp only [progMeasure_cons, elemWeight] at *
                omega
              · by_cases hm : isMulPair cur nxt = true
                · have hrec := ih rest (by omega)
                  have hw := mulPair_nxt_weight cur nxt hm
                  simp only [optPassF, hz, hs, hm, if_true, Bool.false_eq_true, if_false]
                  have hdup : elemWeight (.stmt ⟨"DUP", [.int 1]⟩) = 0 := by decide
                  have hadd : ∀ b : Bool, elemWeight
                      (.stmt (if b = true then (⟨"ADD", []⟩ : EWVMStatement)
                              else ⟨"FADD", []⟩)) = 0 := by
                    intro b; cases b <;> decide
                  simp only [progMeasure_cons, hdup, hadd]
                  simp only [elemWeight] at *
                  omega
                · have hrec := ih (.stmt nxt :: rest) (by simpa using hrest)
                  simp only [optPassF, hz, hs, hm, Bool.false_eq_true, if_false]
                  simp only [progMeasure_cons] at *
                  omega
          | label n =>
            have hrec := ih (.label n :: rest) (by simpa using hrest)
            simp only [optPassF]
            simp only [progMeasure_cons] at *
            omega
          | comment c =>
            have hrec := ih (.comment c :: rest) (by simpa using hrest)
            simp only [optPassF]
            simp only [progMeasure_cons] at *
            omega
        | label n =>
          have hrec := ih (e2 :: rest) (by simpa using hrest)
          simp only [optPassF]
          simp only [progMeasure_cons] at *
          omega
        | comment c =>
          have hrec := ih (e2 :: rest) (by simpa using hrest)
          simp only [optPassF]
          simp only [progMeasure_cons] at *
          omega

/-! ### Symmetry of the Python equality, and weights of zero pushes -/

theorem argPyEq_single_comm (a b : EWVMArg) : a.pyEq b = b.pyEq a := by
  cases a <;> cases b <;> simp [EWVMArg.pyEq, eq_comm]

theorem argsPyEq_comm (l m : List EWVMArg) : argsPyEq l m = argsPyEq m l := by
  induction l generalizing m with
  | nil => cases m <;> simp [argsPyEq]
  | cons a as ih =>
    cases m with
    | nil => simp [argsPyEq]
    | cons b bs => simp [argsPyEq, argPyEq_single_comm, ih]

theorem stmtPyEq_comm (s t : EWVMStatement) : s.pyEq t = t.pyEq s := by
  simp only [EWVMStatement.pyEq, argsPyEq_comm]
  rw [Bool.beq_comm]

theorem stmtWeight_of_pyEq_pushi0 (s : EWVMStatement) (h : s.pyEq pushi0 = true) :
    stmtWeight s = 1 := by
  have hin : s.instruction = "PUSHI" := by
    simp only [EWVMStatement.pyEq, pushi0, Bool.and_eq_true, beq_iff_eq] at h
    exact h.1
  simp [stmtWeight, hin, h]

theorem stmtWeight_of_pyEq_pushf0 (s : EWVMStatement) (h : s.pyEq pushf0 = true) :
    stmtWeight s = 2 := by
  have hin : s.instruction = "PUSHF" := by
    simp only [EWVMStatement.pyEq, pushf0, Bool.and_eq_true, beq_iff_eq] at h
    exact h.1
  simp [stmtWeight, hin]

theorem countZeros_eq_zero (l : List EWVMElement) (e : EWVMElement) (rest : List EWVMElement)
    (hl : l = e :: rest) (h : countZeros l = 0) : isZeroPush e = false := by
  subst hl
  by_cases hz : isZeroPush e = true
  · simp [countZeros, hz] at h
  · simpa using hz

/-! ### A pass that changes the program strictly decreases the measure -/

theorem optPassF_progress : ∀ f p, p.length ≤ f →
    progPyEq (optPassF f p) p = true ∨ progMeasure (optPassF f p) < progMeasure p := by
  intro f
  induction f with
  | zero =>
    intro p hf
    have : p = [] := by
      cases p with
      | nil => rfl
      | cons a l => simp at hf
    subst this
    exact Or.inl (by simp [optPassF, progPyEq])
  | succ f ih =>
    intro p hf
    cases p with
    | nil => exact Or.inl (by simp [optPassF, progPyEq])
    | cons e tail =>
      cases tail with
      | nil => exact Or.inl (by simp [optPassF, progPyEq_refl])
      | cons e2 rest =>
        have hrest : rest.length + 1 ≤ f := by
          simp at hf; omega
        cases e with
        | stmt cur =>
          cases e2 with
          | stmt nxt =>
            by_cases hz : isZeroStmt cur = true
            · have hzp : isZeroPush (.stmt cur) = true := hz
              have hcnt : countZeros (.stmt cur :: .stmt nxt :: rest) =
                  countZeros (.stmt nxt :: rest) + 1 := by
                simp [countZeros, hzp]
              have hskipeq : skipZeros (.stmt cur :: .stmt nxt :: rest) =
                  skipZeros (.stmt nxt :: rest) := by
                simp [skipZeros, hzp]
              simp only [optPassF, hz, if_true]
              by_cases h1 : countZeros (.stmt cur :: .stmt nxt :: rest) = 1
              · have hnz : isZeroPush (.stmt nxt) = false :=
                  countZeros_eq_zero _ _ rest rfl (by omega)
                have hskipeq2 : skipZeros (.stmt cur :: .stmt nxt :: rest) =
                    .stmt nxt :: rest := by
                  rw [hskipeq]; simp [skipZeros, hnz]
                simp only [h1, if_true, hskipeq2, List.singleton_append]
                by_cases hcur : cur.pyEq pushi0 = true
                · rcases ih (.stmt nxt :: rest) (by simpa using hrest) with hEq | hLt
                  · refine Or.inl ?_
                    have hhead : pushi0.pyEq cur = true := by
                      rw [stmtPyEq_comm]; exact hcur
                    simpa [progPyEq, EWVMElement.pyEq, hhead] using hEq
                  · refine Or.inr ?_
                    have hw := stmtWeight_of_pyEq_pushi0 cur hcur
                    have hw0 : elemWeight (.stmt pushi0) = 1 := by decide
                    simp only [progMeasure_cons, elemWeight, hw0] at *
                    omega
                · have hcurf : cur.pyEq pushf0 = true := by
                    simp only [isZeroStmt, Bool.or_eq_true] at hz
                    rcases hz with h | h
                    · exact absurd h hcur
                    · exact h
                  refine Or.inr ?_
                  have hw := stmtWeight_of_pyEq_pushf0 cur hcurf
                  have hrec := optPassF_le f (.stmt nxt :: rest) (by simpa using hrest)
                  have hw0 : elemWeight (.stmt pushi0) = 1 := by decide
                  simp only [progMeasure_cons, elemWeight, hw0] at *
                  omega
              · refine Or.inr ?_
                simp only [h1, if_false]
                have hskip :
                    (skipZeros (.stmt cur :: .stmt nxt :: rest)).length ≤ rest.length + 1 := by
                  rw [hskipeq]; exact skipZeros_length_le _
                have hrec := optPassF_le f _ (le_trans hskip hrest)
                have hms := measure_skipZeros (.stmt cur :: .stmt nxt :: rest)
                rw [progMeasure_append]
                have hw : progMeasure [.stmt ⟨"PUSHN",
                    [.int (countZeros (.stmt cur :: .stmt nxt :: rest) : Int)]⟩] = 0 := by
                  simp [progMeasure, elemWeight, stmtWeight_pushn]
                omega
            · by_cases hs : isStorePair cur nxt = true
              · refine Or.inr ?_
                have hrec := optPassF_le f rest (by omega)
                have hw := storePair_nxt_weight cur nxt hs
                simp only [optPassF, hz, hs, if_true, Bool.false_eq_true, if_false]
                have hdup : elemWeight (.stmt ⟨"DUP", [.int 1]⟩) = 0 := by decide
                simp only [progMeasure_cons, elemWeight, hdup] at *
                omega
              · by_cases hm : isMulPair cur nxt = true
                · refine Or.inr ?_
                  have hrec := optPassF_le f rest (by omega)
                  have hw := mulPair_nxt_weight cur nxt hm
                  simp only [optPassF, hz, hs, hm, if_true, Bool.false_eq_true, if_false]
                  have hdup : elemWeight (.stmt ⟨"DUP", [.int 1]⟩) = 0 := by decide
                  have hadd : ∀ b : Bool, elemWeight
                      (.stmt (if b = true then (⟨"ADD", []⟩ : EWVMStatement)
                              else ⟨"FADD", []⟩)) = 0 := by
                    intro b; cases b <;> decide
                  simp only [progMeasure_cons, hdup, hadd]
                  simp only [elemWeight] at *
                  omega
                · simp only [optPassF, hz, hs, hm, Bool.false_eq_true, if_false]
                  rcases ih (.stmt nxt :: rest) (by simpa using hrest) with hEq | hLt
                  · exact Or.inl (by
                      simpa [progPyEq, elemPyEq_refl] using hEq)
                  · refine Or.inr ?_
                    simp only [progMeasure_cons] at *
                    omega
          | label n =>
            simp only [optPassF]
            rcases ih (.label n :: rest) (by simpa using hrest) with hEq | hLt
            · exact Or.inl (by simpa [progPyEq, elemPyEq_refl] using hEq)
            · refine Or.inr ?_
              simp only [progMeasure_cons] at *
              omega
          | comment c =>
            simp only [optPassF]
            rcases ih (.comment c :: rest) (by simpa using hrest) with hEq | hLt
            · exact Or.inl (by simpa [progPyEq, elemPyEq_refl] using hEq)
            · refine Or.inr ?_
              simp only [progMeasure_cons] at *
              omega
        | label n =>
          simp only [optPassF]
          rcases ih (e2 :: rest) (by simpa using hrest) with hEq | hLt
          · exact Or.inl (by simpa [progPyEq, elemPyEq_refl] using hEq)
          · refine Or.inr ?_
            simp only [progMeasure_cons] at *
            omega
        | comment c =>
          simp only [optPassF]
          rcases ih (e2 :: rest) (by simpa using hrest) with hEq | hLt
          · exact Or.inl (by simpa [progPyEq, elemPyEq_refl] using hEq)
          · refine Or.inr ?_
            simp only [progMeasure_cons] at *
            omega

/-- The key progress fact for the fixed-point iteration: a pass either returns
a program Python-equal to its input, or strictly decreases the measure. -/
theorem optimizationPass_progress (p : EWVMProgram) :
    progPyEq (optimizationPass p) p = true ∨
    progMeasure (optimizationPass p) < progMeasure p :=
  optPassF_progress p.length p (Nat.le_refl _)

/-! ## The fixed-point iteration (`apply_ewvm_peephole_optimizations`, lines 85-93) -/

/-- The `while True` loop of `apply_ewvm_peephole_optimizations` with explicit
fuel: run a pass; if it returns a program Python-equal (`==`) to its input,
return the input, else continue on the pass's output.  By
`optimizationPass_progress` each continuing iteration strictly decreases
`progMeasure`, so fuel `progMeasure p + 1` always reaches the fixed point. -/
def applyF : Nat → EWVMProgram → EWVMProgram
  | 0, p => p
  | f + 1, p =>
    if progPyEq (optimizationPass p) p then p else applyF f (optimizationPass p)

/-- `apply_ewvm_peephole_optimizations`. -/
def applyEwvmPeepholeOptimizations (p : EWVMProgram) : EWVMProgram :=
  applyF (progMeasure p + 1) p

theorem applyF_fix : ∀ f p, progMeasure p < f →
    progPyEq (optimizationPass (applyF f p)) (applyF f p) = true := by
  intro f
  induction f with
  | zero => intro p hp; omega
  | succ f ih =>
    intro p hp
    by_cases h : progPyEq (optimizationPass p) p = true
    · simp [applyF, h]
    · rcases optimizationPass_progress p with hEq | hLt
      · exact absurd hEq h
      · simp only [applyF, h, Bool.false_eq_true, if_false]
        exact ih (optimizationPass p) (by omega)

/-- The result of the optimizer is a Python-`==` fixed point of the pass. -/
theorem apply_fixed_point (p : EWVMProgram) :
    progPyEq (optimizationPass (applyEwvmPeepholeOptimizations p))
      (applyEwvmPeepholeOptimizations p) = true :=
  applyF_fix (progMeasure p + 1) p (Nat.lt_succ_self _)

/-- `n`-fold iteration of the single peephole pass (the successive
`next_program` values of the loop). -/
def passIterate : Nat → EWVMProgram → EWVMProgram
  | 0, p => p
  | n + 1, p => passIterate n (optimizationPass p)

/-! ## Preservation of labels and comments (claim C8 machinery) -/

/-- The non-instruction elements of a program: labels and comments. -/
def nonInstr : EWVMElement → Bool
  | .stmt _ => false
  | _ => true

theorem filter_skipZeros (l : List EWVMElement) :
    (skipZeros l).filter nonInstr = l.filter nonInstr := by
  induction l with
  | nil => rfl
  | cons e rest ih =>
    by_cases h : isZeroPush e = true
    · have hs : nonInstr e = false := by
        cases e with
        | stmt s => rfl
        | label n => simp [isZeroPush] at h
        | comment c => simp [isZeroPush] at h
      simp [skipZeros, h, List.filter_cons, hs, ih]
    · simp [skipZeros, h]

theorem optPassF_filter : ∀ f p, p.length ≤ f →
    (optPassF f p).filter nonInstr = p.filter nonInstr := by
  intro f
  induction f with
  | zero =>
    intro p hf
    have : p = [] := by
      cases p with
      | nil => rfl
      | cons a l => simp at hf
    subst this
    simp [optPassF]
  | succ f ih =>
    intro p hf
    cases p with
    | nil => simp [optPassF]
    | cons e tail =>
      cases tail with
      | nil => simp [optPassF]
      | cons e2 rest =>
        have hrest : rest.length + 1 ≤ f := by
          simp at hf; omega
        cases e with
        | stmt cur =>
          cases e2 with
          | stmt nxt =>
            by_cases hz : isZeroStmt cur = true
            · have hzp : isZeroPush (.stmt cur) = true := hz
              have hskipeq : skipZeros (.stmt cur :: .stmt nxt :: rest) =
                  skipZeros (.stmt nxt :: rest) := by
                simp [skipZeros, hzp]
              have hskip :
                  (skipZeros (.stmt cur :: .stmt nxt :: rest)).length ≤ rest.length + 1 := by
                rw [hskipeq]; exact skipZeros_length_le _
              simp only [optPassF, hz, if_true]
              rw [List.filter_append, ih _ (le_trans hskip hrest), filter_skipZeros]
              by_cases h1 : countZeros (.stmt cur :: .stmt nxt :: rest) = 1 <;>
                simp [h1, List.filter_cons, nonInstr]
            · by_cases hs : isStorePair cur nxt = true
              · simp only [optPassF, hz, hs, if_true, Bool.false_eq_true, if_false]
                rw [List.filter_cons, List.filter_cons]
                simp only [nonInstr, if_false]
                rw [ih rest (by omega)]
                simp [List.filter_cons, nonInstr]
              · by_cases hm : isMulPair cur nxt = true
                · simp only [optPassF, hz, hs, hm, if_true, Bool.false_eq_true, if_false]
                  rw [List.filter_cons, List.filter_cons]
                  simp only [nonInstr, if_false]
                  rw [ih rest (by omega)]
                  simp [List.filter_cons, nonInstr]
                · simp only [optPassF, hz, hs, hm, Bool.false_eq_true, if_false]
                  rw [List.filter_cons, List.filter_cons]
                  simp only [nonInstr, if_false]
                  rw [ih (.stmt nxt :: rest) (by simpa using hrest)]
          | label n =>
            simp only [optPassF]
            rw [List.filter_cons, List.filter_cons,
                ih (.label n :: rest) (by simpa using hrest)]
          | comment c =>
            simp only [optPassF]
            rw [List.filter_cons, List.filter_cons,
                ih (.comment c :: rest) (by simpa using hrest)]
        | label n =>
          simp only [optPassF]
          rw [List.filter_cons, List.filter_cons, ih (e2 :: rest) (by simpa using hrest)]
        | comment c =>
          simp only [optPassF]
          rw [List.filter_cons, List.filter_cons, ih (e2 :: rest) (by simpa using hrest)]

theorem optimizationPass_filter (p : EWVMProgram) :
    (optimizationPass p).filter nonInstr = p.filter nonInstr :=
  optPassF_filter p.length p (Nat.le_refl _)

theorem applyF_filter : ∀ f p,
    (applyF f p).filter nonInstr = p.filter nonInstr := by
  intro f
  induction f with
  | zero => intro p; rfl
  | succ f ih =>
    intro p
    by_cases h : progPyEq (optimizationPass p) p = true
    · simp [applyF, h]
    · simp only [applyF, h, Bool.false_eq_true, if_false]
      rw [ih (optimizationPass p), optimizationPass_filter]

/-! ## Claim theorems for the peephole optimizer -/

/-- C8: the peephole optimizer leaves every `Label` and `Comment` element
intact — the subsequence of non-instruction elements of the output (of a
single pass, and of the whole fixed-point optimizer) equals that of the
input: none dropped, duplicated or reordered, and in particular no rewrite
pattern ever consumes instructions on both sides of a label. -/
theorem peephole_preserves_labels_and_comments (p : EWVMProgram) :
    (optimizationPass p).filter nonInstr = p.filter nonInstr ∧
    (applyEwvmPeepholeOptimizations p).filter nonInstr = p.filter nonInstr :=
  ⟨optimizationPass_filter p, applyF_filter (progMeasure p + 1) p⟩

/-- C4: the output of `apply_ewvm_peephole_optimizations` is a fixed point of
the optimizer — applying the optimizer a second time to its own output
returns that output unchanged. -/
theorem peephole_idempotent (p : EWVMProgram) :
    applyEwvmPeepholeOptimizations (applyEwvmPeepholeOptimizations p) =
      applyEwvmPeepholeOptimizations p := by
  have h := apply_fixed_point p
  conv_lhs => rw [applyEwvmPeepholeOptimizations, applyF]
  rw [if_pos h]

/-- C10: the pass-until-no-change loop of `apply_ewvm_peephole_optimizations`
terminates on every finite input program: after finitely many iterations of
`__optimization_pass`, two consecutive passes produce (Python-)equal
programs. -/
theorem peephole_terminates (p : EWVMProgram) :
    ∃ n, progPyEq (optimizationPass (passIterate n p)) (passIterate n p) = true := by
  suffices H : ∀ m p, progMeasure p ≤ m →
      ∃ n, progPyEq (optimizationPass (passIterate n p)) (passIterate n p) = true from
    H (progMeasure p) p (Nat.le_refl _)
  intro m
  induction m with
  | zero =>
    intro p hp
    rcases optimizationPass_progress p with hEq | hLt
    · exact ⟨0, hEq⟩
    · omega
  | succ m ih =>
    intro p hp
    rcases optimizationPass_progress p with hEq | hLt
    · exact ⟨0, hEq⟩
    · obtain ⟨n, hn⟩ := ih (optimizationPass p) (by omega)
      exact ⟨n + 1, hn⟩

/-! ## Decomposition of a pass around a maximal zero-push run (claim C3) -/

theorem instr_of_zero (s : EWVMStatement) (h : isZeroStmt s = true) :
    s.instruction = "PUSHI" ∨ s.instruction = "PUSHF" := by
  simp only [isZeroStmt, Bool.or_eq_true, EWVMStatement.pyEq, pushi0, pushf0,
    Bool.and_eq_true, beq_iff_eq] at h
  rcases h with h | h
  · exact Or.inl h.1
  · exact Or.inr h.1

theorem zero_isStorePair_false (cur z : EWVMStatement) (h : isZeroStmt z = true) :
    isStorePair cur z = false := by
  rcases instr_of_zero z h with hi | hi <;> simp [isStorePair, hi]

theorem zero_isMulPair_false (cur z : EWVMStatement) (h : isZeroStmt z = true) :
    isMulPair cur z = false := by
  rcases instr_of_zero z h with hi | hi <;>
    simp [isMulPair, EWVMStatement.pyEq, mulStmt, fmulStmt, hi]

theorem zeroPush_stmt (e : EWVMElement) (h : isZeroPush e = true) :
    ∃ s, e = .stmt s ∧ isZeroStmt s = true := by
  cases e with
  | stmt s => exact ⟨s, rfl, h⟩
  | label n => simp [isZeroPush] at h
  | comment c => simp [isZeroPush] at h

theorem countZeros_append_of_stop (xs ys : List EWVMElement)
    (h : ∃ x ∈ xs, isZeroPush x = false) :
    countZeros (xs ++ ys) = countZeros xs ∧ skipZeros (xs ++ ys) = skipZeros xs ++ ys := by
  induction xs with
  | nil => simp at h
  | cons x xs ih =>
    by_cases hx : isZeroPush x = true
    · have h2 : ∃ y ∈ xs, isZeroPush y = false := by
        obtain ⟨y, hy, hyf⟩ := h
        rcases List.mem_cons.mp hy with rfl | hmem
        · rw [hx] at hyf; simp at hyf
        · exact ⟨y, hmem, hyf⟩
      obtain ⟨hc, hs⟩ := ih h2
      constructor
      · simp [countZeros, hx, hc]
      · simp [skipZeros, hx, hs]
    · constructor
      · simp [countZeros, hx]
      · simp [skipZeros, hx]

theorem skipZeros_getLast? (l : List EWVMElement) (x : EWVMElement)
    (h : (skipZeros l).getLast? = some x) : l.getLast? = some x := by
  induction l with
  | nil => simp [skipZeros] at h
  | cons e rest ih =>
    by_cases he : isZeroPush e = true
    · simp only [skipZeros, he, if_true] at h
      have hrest := ih h
      cases rest with
      | nil => simp at hrest
      | cons r rs => rw [List.getLast?_cons_cons]; exact hrest
    · simpa [skipZeros, he] using h

theorem getLast?_mem_elem (l : List EWVMElement) (x : EWVMElement)
    (h : l.getLast? = some x) : x ∈ l := by
  cases l with
  | nil => simp at h
  | cons e rest =>
    have : (e :: rest).getLast (by simp) = x := by
      rwa [List.getLast?_eq_getLast _ (by simp), Option.some_inj] at h
    rw [← this]
    exact List.getLast_mem _

theorem optPassF_append : ∀ f pre rest, (pre ++ rest).length ≤ f →
    (∀ l, pre.getLast? = some l → isZeroPush l = false) →
    (∀ e, rest.head? = some e → isZeroPush e = true) →
    optPassF f (pre ++ rest) = optPassF f pre ++ optPassF f rest := by
  intro f
  induction f with
  | zero =>
    intro pre rest hf _ _
    have h1 : pre = [] := by
      cases pre with
      | nil => rfl
      | cons a l => simp at hf
    have h2 : rest = [] := by
      subst h1
      cases rest with
      | nil => rfl
      | cons a l => simp at hf
    subst h1; subst h2; rfl
  | succ f ih =>
    intro pre rest hf hpre hrest
    cases pre with
    | nil => simp [optPassF]
    | cons e pre1 =>
      cases pre1 with
      | nil =>
        -- pre = [e]; hpre gives that e is not a zero push
        have he : isZeroPush e = false := hpre e (by simp)
        cases rest with
        | nil => simp [optPassF]
        | cons r rest1 =>
          have hr : isZeroPush r = true := hrest r (by simp)
          obtain ⟨z, rfl, hz⟩ := zeroPush_stmt r hr
          have hrl : rest1.length + 1 ≤ f := by simp at hf; omega
          have hcongr := optPassF_congr f (f + 1) (.stmt z :: rest1)
            (by simpa using hrl) (by simp; omega)
          cases e with
          | stmt cur =>
            have hcz : isZeroStmt cur = false := by simpa [isZeroPush] using he
            simp only [List.cons_append, List.nil_append, optPassF, hcz,
              Bool.false_eq_true, if_false, zero_isStorePair_false cur z hz,
              zero_isMulPair_false cur z hz]
            rw [hcongr]
          | label n =>
            simp only [List.cons_append, List.nil_append, optPassF]
            rw [hcongr]
          | comment c =>
            simp only [List.cons_append, List.nil_append, optPassF]
            rw [hcongr]
      | cons e2 pre2 =>
        -- pre = e :: e2 :: pre2
        have hpre2 : ∀ l, (e2 :: pre2).getLast? = some l → isZeroPush l = false := by
          intro l hl
          exact hpre l (by rwa [List.getLast?_cons_cons])
        have hpre3 : ∀ l, pre2.getLast? = some l → isZeroPush l = false := by
          intro l hl
          apply hpre2 l
          cases pre2 with
          | nil => simp at hl
          | cons a b => rwa [List.getLast?_cons_cons]
        have hlen : (e2 :: pre2 ++ rest).length + 1 ≤ f + 1 := by simp at hf ⊢; omega
        have hrcongr : optPassF f rest = optPassF (f + 1) rest := by
          apply optPassF_congr <;> simp at hf ⊢ <;> omega
        cases e with
        | stmt cur =>
          cases e2 with
          | stmt nxt =>
            by_cases hz : isZeroStmt cur = true
            · -- zero-run branch on both sides
              have hstop : ∃ x ∈ .stmt cur :: .stmt nxt :: pre2, isZeroPush x = false := by
                have hne : (EWVMElement.stmt cur :: .stmt nxt :: pre2) ≠ [] := by simp
                obtain ⟨l, hl⟩ : ∃ l,
                    (EWVMElement.stmt cur :: .stmt nxt :: pre2).getLast? = some l := by
                  rw [List.getLast?_eq_getLast _ hne]
                  exact ⟨_, rfl⟩
                exact ⟨l, getLast?_mem_elem _ l hl, hpre l hl⟩
              obtain ⟨hcz, hsz⟩ := countZeros_append_of_stop
                (.stmt cur :: .stmt nxt :: pre2) rest hstop
              have hskl : (skipZeros (.stmt cur :: .stmt nxt :: pre2)).length ≤
                  pre2.length + 1 := by
                have : skipZeros (.stmt cur :: .stmt nxt :: pre2) =
                    skipZeros (.stmt nxt :: pre2) := by
                  simp [skipZeros, isZeroPush, hz]
                rw [this]
                exact skipZeros_length_le _
              have hpresk : ∀ l, (skipZeros (.stmt cur :: .stmt nxt :: pre2)).getLast? =
                  some l → isZeroPush l = false := by
                intro l hl
                exact hpre l (skipZeros_getLast? _ l hl)
              have hihs := ih (skipZeros (.stmt cur :: .stmt nxt :: pre2)) rest
                (by simp at hf ⊢; omega) hpresk hrest
              simp only [List.cons_append, List.append_eq] at hcz hsz
              simp only [List.cons_append, optPassF, hz, if_true, List.append_eq]
              rw [hcz, hsz, hihs, hrcongr, List.append_assoc]
            · by_cases hs : isStorePair cur nxt = true
              · have hih := ih pre2 rest (by simp at hf ⊢; omega) hpre3 hrest
                simp only [List.cons_append, optPassF, hz, hs, if_true,
                  Bool.false_eq_true, if_false, List.append_eq]
                rw [hih, hrcongr]
              · by_cases hm : isMulPair cur nxt = true
                · have hih := ih pre2 rest (by simp at hf ⊢; omega) hpre3 hrest
                  simp only [List.cons_append, optPassF, hz, hs, hm, if_true,
                    Bool.false_eq_true, if_false, List.append_eq]
                  rw [hih, hrcongr]
                · have hih := ih (.stmt nxt :: pre2) rest (by simp at hf ⊢; omega)
                    hpre2 hrest
                  simp only [List.cons_append, optPassF, hz, hs, hm,
                    Bool.false_eq_true, if_false, List.append_eq]
                  rw [show (EWVMElement.stmt nxt :: (pre2 ++ rest)) =
                      (.stmt nxt :: pre2) ++ rest by simp, hih, hrcongr]
          | label n =>
            have hih := ih (.label n :: pre2) rest (by simp at hf ⊢; omega) hpre2 hrest
            simp only [List.cons_append, optPassF, List.append_eq]
            rw [show (EWVMElement.label n :: (pre2 ++ rest)) =
                (.label n :: pre2) ++ rest by simp, hih, hrcongr]
          | comment c =>
            have hih := ih (.comment c :: pre2) rest (by simp at hf ⊢; omega) hpre2 hrest
            simp only [List.cons_append, optPassF, List.append_eq]
            rw [show (EWVMElement.comment c :: (pre2 ++ rest)) =
                (.comment c :: pre2) ++ rest by simp, hih, hrcongr]
        | label n =>
          have hih := ih (e2 :: pre2) rest (by simp at hf ⊢; omega) hpre2 hrest
          simp only [List.cons_append, optPassF, List.append_eq]
          rw [show (e2 :: (pre2 ++ rest)) = (e2 :: pre2) ++ rest by simp, hih, hrcongr]
        | comment c =>
          have hih := ih (e2 :: pre2) rest (by simp at hf ⊢; omega) hpre2 hrest
          simp only [List.cons_append, optPassF, List.append_eq]
          rw [show (e2 :: (pre2 ++ rest)) = (e2 :: pre2) ++ rest by simp, hih, hrcongr]

theorem countZeros_all_zero : ∀ run suf : List EWVMElement,
    (∀ e ∈ run, isZeroPush e = true) →
    (∀ e, suf.head? = some e → isZeroPush e = false) →
    countZeros (run ++ suf) = run.length ∧ skipZeros (run ++ suf) = suf := by
  intro run
  induction run with
  | nil =>
    intro suf _ hsuf
    cases suf with
    | nil => exact ⟨rfl, rfl⟩
    | cons s suf1 =>
      have := hsuf s (by simp)
      simp [countZeros, skipZeros, this]
  | cons z run1 ih =>
    intro suf hall hsuf
    have hz := hall z (by simp)
    obtain ⟨hc, hs⟩ := ih suf (fun e he => hall e (by simp [he])) hsuf
    constructor
    · simp [countZeros, hz, hc]
    · simp [skipZeros, hz, hs]

/-- Behaviour of a single pass on a (maximal) zero-push run followed by
`suf`: collapse to `PUSHN N` for `N ≥ 2`; rewrite to `PUSHI 0` for `N = 1`
when another statement follows; otherwise copy. -/
theorem pass_zeroRun (run suf : List EWVMElement) (hne : run ≠ [])
    (hall : ∀ e ∈ run, isZeroPush e = true)
    (hsuf : ∀ e, suf.head? = some e → isZeroPush e = false) :
    optimizationPass (run ++ suf) =
      (if 2 ≤ run.length then [.stmt ⟨"PUSHN", [.int (run.length : Int)]⟩]
       else match suf.head? with
         | some (.stmt _) => [.stmt pushi0]
         | _ => run) ++ optimizationPass suf := by
  cases run with
  | nil => exact absurd rfl hne
  | cons z run1 =>
    have hz := hall z (by simp)
    obtain ⟨zs, rfl, hzs⟩ := zeroPush_stmt z hz
    cases run1 with
    | nil =>
      -- run of length one
      cases suf with
      | nil =>
        simp [optimizationPass, optPassF]
      | cons s suf1 =>
        have hns := hsuf s (by simp)
        have hcongr := optPassF_congr ((.stmt zs :: s :: suf1 : List EWVMElement).length - 1)
          (s :: suf1 : List EWVMElement).length (s :: suf1) (by simp) (by simp)
        cases s with
        | stmt ss =>
          have hns2 : isZeroStmt ss = false := by simpa [isZeroPush] using hns
          have hcz : countZeros (.stmt zs :: .stmt ss :: suf1) = 1 := by
            simp [countZeros, isZeroPush, hzs, hns2]
          have hsz : skipZeros (.stmt zs :: .stmt ss :: suf1) = .stmt ss :: suf1 := by
            simp [skipZeros, isZeroPush, hzs, hns2]
          simp only [List.cons_append, List.nil_append, optimizationPass, List.length_cons,
            optPassF, hzs, if_true, hcz, hsz]
          simp only [List.length_cons] at hcongr
          rw [show suf1.length + 1 + 1 - 1 = suf1.length + 1 by omega] at hcongr
          rw [hcongr]
          simp
        | label n =>
          simp only [List.cons_append, List.nil_append, optimizationPass, List.length_cons,
            optPassF]
          simp
        | comment c =>
          simp only [List.cons_append, List.nil_append, optimizationPass, List.length_cons,
            optPassF]
          simp
    | cons z2 run2 =>
      -- run of length at least two
      have hz2 := hall z2 (by simp)
      obtain ⟨zs2, rfl, hzs2⟩ := zeroPush_stmt z2 hz2
      obtain ⟨hc, hs⟩ := countZeros_all_zero (.stmt zs :: .stmt zs2 :: run2) suf hall hsuf
      have hbig := optimizationPass_eq_optPassF
        ((.stmt zs :: .stmt zs2 :: run2 : List EWVMElement) ++ suf)
        ((run2.length + suf.length + 1) + 1) (by simp)
      have hcongr2 := optPassF_congr (run2.length + suf.length + 1) suf.length suf
        (by omega) (by omega)
      simp only [List.cons_append, List.append_eq] at hc hs
      rw [hbig]
      simp only [List.cons_append, optPassF, hzs, if_true, List.append_eq]
      rw [hc, hs, hcongr2]
      have h1 : ¬ ((EWVMElement.stmt zs :: EWVMElement.stmt zs2 :: run2).length = 1) := by
        simp
      have h2 : 2 ≤ (EWVMElement.stmt zs :: EWVMElement.stmt zs2 :: run2).length := by
        simp
      rw [if_neg h1, if_pos h2, optimizationPass]

theorem pass_append (pre rest : List EWVMElement)
    (hpre : ∀ l, pre.getLast? = some l → isZeroPush l = false)
    (hrest : ∀ e, rest.head? = some e → isZeroPush e = true) :
    optimizationPass (pre ++ rest) = optimizationPass pre ++ optimizationPass rest := by
  have h := optPassF_append (pre ++ rest).length pre rest (Nat.le_refl _) hpre hrest
  rw [optimizationPass, h,
    ← optimizationPass_eq_optPassF pre (pre ++ rest).length (by simp),
    ← optimizationPass_eq_optPassF rest (pre ++ rest).length (by simp)]

/-- C3 (amended): for every maximal run of consecutive `PUSHI 0` / `PUSHF 0.0`
statements (any mix) of length `N` in the input of a single peephole pass
(`pre` does not end and `suf` does not start with such a statement): for
`N ≥ 2` the output contains exactly one `PUSHN N` in its place; for `N = 1`
followed by another instruction the output contains `PUSHI 0` in its place
(so a lone `PUSHF 0.0` is rewritten to `PUSHI 0`); for `N = 1` at the end of
the program or followed by a label or comment the run is left unchanged. -/
theorem zeroRun_collapse (pre run suf : List EWVMElement) (hne : run ≠ [])
    (hall : ∀ e ∈ run, isZeroPush e = true)
    (hpre : ∀ l, pre.getLast? = some l → isZeroPush l = false)
    (hsuf : ∀ e, suf.head? = some e → isZeroPush e = false) :
    optimizationPass (pre ++ run ++ suf) =
      optimizationPass pre ++
      (if 2 ≤ run.length then [.stmt ⟨"PUSHN", [.int (run.length : Int)]⟩]
       else match suf.head? with
         | some (.stmt _) => [.stmt pushi0]
         | _ => run) ++
      optimizationPass suf := by
  have hrest : ∀ e, (run ++ suf).head? = some e → isZeroPush e = true := by
    intro e he
    cases run with
    | nil => exact absurd rfl hne
    | cons r run1 =>
      simp only [List.cons_append, List.head?_cons, Option.some_inj] at he
      subst he
      exact hall r (by simp)
  rw [List.append_assoc, pass_append pre (run ++ suf) hpre hrest,
    pass_zeroRun run suf hne hall hsuf, ← List.append_assoc]

/-- C3, counterexample to the claim as stated: the claim says a run of length
`N = 1` is left unchanged, but a lone `PUSHF 0.0` followed by another
instruction is rewritten to `PUSHI 0`. -/
theorem zeroRun_claim_counterexample :
    optimizationPass [.stmt pushf0, .stmt ⟨"ADD", []⟩] =
      [.stmt pushi0, .stmt ⟨"ADD", []⟩] ∧
    optimizationPass [.stmt pushf0, .stmt ⟨"ADD", []⟩] ≠
      [.stmt pushf0, .stmt ⟨"ADD", []⟩] := by
  constructor
  · decide
  · decide

/-- Witness for `zeroRun_collapse` at a concrete input. -/
theorem zeroRun_collapse_witness :
    optimizationPass ([.stmt ⟨"ADD", []⟩] ++ [.stmt pushi0, .stmt pushf0] ++ [.label "L"]) =
      optimizationPass [.stmt ⟨"ADD", []⟩] ++ [.stmt ⟨"PUSHN", [.int 2]⟩] ++
      optimizationPass [.label "L"] := by
  have h := zeroRun_collapse [.stmt ⟨"ADD", []⟩] [.stmt pushi0, .stmt pushf0] [.label "L"]
    (by decide) (by decide) (by decide) (by decide)
  simpa using h

/-! ## AST types (`ast.py`) -/

/-- `BuiltInType(IntEnum)`: BOOLEAN = 0, INTEGER = 1, REAL = 2, CHAR = 3,
STRING = 4 (`ast.py` lines 54-59). -/
inductive BuiltInType where
  | BOOLEAN
  | INTEGER
  | REAL
  | CHAR
  | STRING
deriving DecidableEq, Repr

/-- The `IntEnum` value of each member. -/
def BuiltInType.toNat : BuiltInType → Nat
  | .BOOLEAN => 0
  | .INTEGER => 1
  | .REAL => 2
  | .CHAR => 3
  | .STRING => 4

/-- Python `max` on two `IntEnum` members (compares by value; `max(a, b)`
returns `b` exactly when `a < b`). -/
def BuiltInType.pymax (a b : BuiltInType) : BuiltInType :=
  if a.toNat < b.toNat then b else a

/-- `TypeValue = BuiltInType | EnumeratedType | RangeType | ArrayType`.
The payloads of the non-built-in constructors are simplified (an enumerated
type by its constant names and ordinals, a range by its integer bounds, an
array opaquely): none of the operations modelled below inspects them. -/
inductive TypeValue where
  | builtin (t : BuiltInType)
  | enumerated (constants : List (String × Int))
  | range (lo hi : Int)
  | array
deriving DecidableEq, Repr

/-- `isinstance(t, BuiltInType)`. -/
def TypeValue.isBuiltin : TypeValue → Bool
  | .builtin _ => true
  | _ => false

/-- Python `max(left_type, right_type)` on two type values asserted to be
built-in (`typechecker.py` lines 103-105); the fallback is unreachable at
the one call site, which guards both arguments. -/
def TypeValue.pymaxBuiltin : TypeValue → TypeValue → TypeValue
  | .builtin a, .builtin b => .builtin (a.pymax b)
  | t, _ => t

/-- `ConstantValue = bool | int | float | str | EnumeratedTypeConstantValue`
(the enumerated constant by its ordinal). -/
inductive ConstantValue where
  | bool (b : Bool)
  | int (n : Int)
  | float (q : ℚ)
  | str (s : String)
  | enum (ordinal : Int)
deriving DecidableEq, Repr

/-! ## Type checker (`typechecker.py`) -/

/-- `TypeChecker.get_binary_operation_type` (lines 89-138): the operator as
the literal Python string, the two operand types, the result or a raised
`TypeCheckerError`.  The relational list at line 125 is
`['=', '<>', '<', '>', '<=', '=>']` — it contains the typo `'=>'`, not
`'>='`. -/
def get_binary_operation_type (op : String) (left_type right_type : TypeValue) :
    Except Unit TypeValue :=
  if (op = "+" ∨ op = "-" ∨ op = "*") ∧
      (left_type = .builtin .INTEGER ∨ left_type = .builtin .REAL) ∧
      (right_type = .builtin .INTEGER ∨ right_type = .builtin .REAL) then
    .ok (TypeValue.pymaxBuiltin left_type right_type)
  else if op = "/" ∧
      (left_type = .builtin .INTEGER ∨ left_type = .builtin .REAL) ∧
      (right_type = .builtin .INTEGER ∨ right_type = .builtin .REAL) then
    .ok (.builtin .REAL)
  else if (op = "div" ∨ op = "mod") ∧
      left_type = .builtin .INTEGER ∧ right_type = .builtin .INTEGER then
    .ok (.builtin .INTEGER)
  else if (op = "and" ∨ op = "or") ∧
      left_type = .builtin .BOOLEAN ∧ right_type = .builtin .BOOLEAN then
    .ok (.builtin .BOOLEAN)
  else if (op = "=" ∨ op = "<>" ∨ op = "<" ∨ op = ">" ∨ op = "<=" ∨ op = "=>") ∧
      left_type.isBuiltin = true ∧ left_type = right_type then
    .ok (.builtin .BOOLEAN)
  else
    .error ()

/-- C6: for every operator in `{=, <>, <, >, <=}` and every built-in type `T`,
`get_binary_operation_type` on two operands of type `T` returns BOOLEAN; and
for `>=` and `in` it raises a type error for every pair of operand types
(the relational list of the source contains the typo `'=>'` instead of
`'>='`, so `'>='` always falls through to the error branch). -/
theorem binary_relational_types :
    (∀ T : BuiltInType, ∀ op ∈ ["=", "<>", "<", ">", "<="],
      get_binary_operation_type op (.builtin T) (.builtin T) =
        .ok (.builtin .BOOLEAN)) ∧
    (∀ t1 t2 : TypeValue,
      get_binary_operation_type ">=" t1 t2 = .error () ∧
      get_binary_operation_type "in" t1 t2 = .error ()) := by
  constructor
  · intro T op hop
    fin_cases hop <;> cases T <;> rfl
  · intro t1 t2
    constructor <;>
    · rw [get_binary_operation_type]
      rw [if_neg (fun h => by rcases h.1 with h | h | h <;> simp at h)]
      rw [if_neg (fun h => by have := h.1; simp at this)]
      rw [if_neg (fun h => by rcases h.1 with h | h <;> simp at h)]
      rw [if_neg (fun h => by rcases h.1 with h | h <;> simp at h)]
      rw [if_neg (fun h => by
        rcases h.1 with h | h | h | h | h | h <;> simp at h)]

/-- Witness for `binary_relational_types` at concrete operators and types. -/
theorem binary_relational_types_witness :
    get_binary_operation_type "<" (.builtin .INTEGER) (.builtin .INTEGER) =
      .ok (.builtin .BOOLEAN) ∧
    get_binary_operation_type ">=" (.builtin .REAL) (.builtin .CHAR) = .error () ∧
    get_binary_operation_type "in" .array (.builtin .REAL) = .error () :=
  ⟨binary_relational_types.1 .INTEGER "<" (by decide),
   (binary_relational_types.2 (.builtin .REAL) (.builtin .CHAR)).1,
   (binary_relational_types.2 .array (.builtin .REAL)).2⟩

/-! ## Code generator (`ewvm.py`) -/

/-- `UnaryOperator = Literal['+', '-', 'not']`. -/
inductive UnOp where
  | pos
  | neg
  | notOp
deriving DecidableEq, Repr

/-- The binary operators handled by `generate_expression_assembly`
(`BinaryOperator` of `ast.py` without `in`, whose emission would leave the
local `instruction` unbound and raise at runtime, and which the type checker
always rejects). -/
inductive BinOp where
  | add
  | sub
  | mul
  | divide
  | intDiv
  | modOp
  | andOp
  | orOp
  | eq
  | neq
  | lt
  | gt
  | le
  | ge
deriving DecidableEq, Repr

/-- Typed expression `(node, type)` (`ast.py` lines 125-128), flattened: each
constructor carries the annotated `TypeValue`.  Variable usages are embedded
index-free (`usage.indices = []`), by the `callable_scope` flag and
`scope_offset` of their `VariableDefinition`. -/
inductive Expression where
  | const (c : ConstantValue) (t : TypeValue)
  | varUse (name : String) (callableScope : Bool) (scopeOffset : Int) (t : TypeValue)
  | unary (op : UnOp) (sub : Expression) (t : TypeValue)
  | binary (op : BinOp) (left right : Expression) (t : TypeValue)
deriving DecidableEq, Repr

/-- The annotation `expression[1]`. -/
def Expression.typeOf : Expression → TypeValue
  | .const _ t => t
  | .varUse _ _ _ t => t
  | .unary _ _ t => t
  | .binary _ _ _ t => t

/-- `generate_constant_assembly` (lines 131-142): bools and ints by `PUSHI`,
floats by `PUSHF`, one-character strings by `PUSHI ord(c)`, longer strings by
`PUSHS`, enumerated constants by `PUSHI ordinal`. -/
def generate_constant_assembly : ConstantValue → List EWVMElement
  | .bool b => [.stmt ⟨"PUSHI", [.int (if b then 1 else 0)]⟩]
  | .int n => [.stmt ⟨"PUSHI", [.int n]⟩]
  | .float q => [.stmt ⟨"PUSHF", [.float q]⟩]
  | .str s =>
    if s.length = 1 then [.stmt ⟨"PUSHI", [.int ((s.get 0).toNat : Int)]⟩]
    else [.stmt ⟨"PUSHS", [.str s]⟩]
  | .enum v => [.stmt ⟨"PUSHI", [.int v]⟩]

/-- The `instruction` selected for a binary operation (lines 277-299): chosen
from the result type for `+ - *`, fixed for `/ div mod and or`, `EQUAL` for
`= <>`, and for the remaining relations chosen from `any_real` — where the
source's `'>'` line picks `FSUB` (not `FSUP`) when a REAL operand is
present. -/
def binInstr (op : BinOp) (lt rt t : TypeValue) : String :=
  if op = .add then (if t = .builtin .REAL then "FADD" else "ADD")
  else if op = .sub then (if t = .builtin .REAL then "FSUB" else "SUB")
  else if op = .mul then (if t = .builtin .REAL then "FMUL" else "MUL")
  else if op = .divide then "FDIV"
  else if op = .intDiv then "DIV"
  else if op = .modOp then "MOD"
  else if op = .andOp then "AND"
  else if op = .orOp then "OR"
  else if op = .eq ∨ op = .neq then "EQUAL"
  else if op = .lt then (if lt = .builtin .REAL ∨ rt = .builtin .REAL then "FINF" else "INF")
  else if op = .gt then (if lt = .builtin .REAL ∨ rt = .builtin .REAL then "FSUB" else "SUP")
  else if op = .le then (if lt = .builtin .REAL ∨ rt = .builtin .REAL then "FINFEQ" else "INFEQ")
  else (if lt = .builtin .REAL ∨ rt = .builtin .REAL then "FSUPEQ" else "SUPEQ")

/-- `generate_expression_assembly` (lines 243-303) on the embedded expression
forms: a one-character string constant annotated STRING is pushed with
`PUSHS`; other constants via `generate_constant_assembly`; an index-free
variable usage reads with `PUSHL`/`PUSHG scope_offset`; unary `-` pushes the
type-matching zero, the operand, then `FSUB`/`SUB`; unary `not` appends
`NOT`; unary `+` has no branch in the source and emits nothing; a binary
operation emits both operands, the selected instruction, and `NOT` after
`<>`. -/
def generate_expression_assembly : Expression → List EWVMElement
  | .const c t =>
    match c with
    | .str s =>
      if s.length = 1 ∧ t = .builtin .STRING then [.stmt ⟨"PUSHS", [.str s]⟩]
      else generate_constant_assembly (.str s)
    | c => generate_constant_assembly c
  | .varUse _ cs off _ => [.stmt ⟨if cs then "PUSHL" else "PUSHG", [.int off]⟩]
  | .unary op sub _ =>
    match op with
    | .neg =>
      (if sub.typeOf = .builtin .REAL then [.stmt ⟨"PUSHF", [.float 0]⟩]
       else [.stmt ⟨"PUSHI", [.int 0]⟩]) ++
      generate_expression_assembly sub ++
      [.stmt ⟨if sub.typeOf = .builtin .REAL then "FSUB" else "SUB", []⟩]
    | .notOp => generate_expression_assembly sub ++ [.stmt ⟨"NOT", []⟩]
    | .pos => []
  | .binary op l r t =>
    generate_expression_assembly l ++ generate_expression_assembly r ++
    [.stmt ⟨binInstr op l.typeOf r.typeOf t, []⟩] ++
    (if op = .neq then [.stmt ⟨"NOT", []⟩] else [])

/-- C9: a binary `>` with a REAL-annotated operand emits `FSUB` as the
operator's instruction; without a REAL operand it emits `SUP`; and `<`,
`<=`, `>=` with a REAL operand emit `FINF`, `FINFEQ`, `FSUPEQ`. -/
theorem real_gt_emits_fsub (l r : Expression) (t : TypeValue) :
    ((l.typeOf = .builtin .REAL ∨ r.typeOf = .builtin .REAL) →
      generate_expression_assembly (.binary .gt l r t) =
        generate_expression_assembly l ++ generate_expression_assembly r ++
        [.stmt ⟨"FSUB", []⟩]) ∧
    (l.typeOf ≠ .builtin .REAL → r.typeOf ≠ .builtin .REAL →
      generate_expression_assembly (.binary .gt l r t) =
        generate_expression_assembly l ++ generate_expression_assembly r ++
        [.stmt ⟨"SUP", []⟩]) ∧
    ((l.typeOf = .builtin .REAL ∨ r.typeOf = .builtin .REAL) →
      generate_expression_assembly (.binary .lt l r t) =
        generate_expression_assembly l ++ generate_expression_assembly r ++
        [.stmt ⟨"FINF", []⟩] ∧
      generate_expression_assembly (.binary .le l r t) =
        generate_expression_assembly l ++ generate_expression_assembly r ++
        [.stmt ⟨"FINFEQ", []⟩] ∧
      generate_expression_assembly (.binary .ge l r t) =
        generate_expression_assembly l ++ generate_expression_assembly r ++
        [.stmt ⟨"FSUPEQ", []⟩]) := by
  refine ⟨fun h => ?_, fun h1 h2 => ?_, fun h => ⟨?_, ?_, ?_⟩⟩ <;>
    simp [generate_expression_assembly, binInstr] <;>
    first
      | (rcases h with h | h <;> simp [h])
      | simp [h1, h2]

/-- Witness for `real_gt_emits_fsub` at concrete expressions
(`1.0 > 2` with a REAL left operand). -/
theorem real_gt_emits_fsub_witness :
    generate_expression_assembly
        (.binary .gt (.const (.float 1) (.builtin .REAL))
          (.const (.int 2) (.builtin .INTEGER)) (.builtin .BOOLEAN)) =
      [.stmt ⟨"PUSHF", [.float 1]⟩, .stmt ⟨"PUSHI", [.int 2]⟩, .stmt ⟨"FSUB", []⟩] := by
  have h := (real_gt_emits_fsub (.const (.float 1) (.builtin .REAL))
    (.const (.int 2) (.builtin .INTEGER)) (.builtin .BOOLEAN)).1 (Or.inl rfl)
  simpa [generate_expression_assembly, generate_constant_assembly] using h

/-! ## Statement code generation (`ewvm.py`, `generate_statement_assembly`) -/

/-- `Label.user(call, name)` (lines 42-47): `USER<n>` or
`USER<n><call-name-lower>`; the optional callable is carried as its
already-lowercased name. -/
def userLabel (call : Option String) (n : Int) : String :=
  "USER" ++ toString n ++ (match call with | some c => c | none => "")

/-- `Label.system(call, name)` (lines 49-54): `SYS<k>` or
`SYS<k><call-name-lower>`. -/
def sysLabel (call : Option String) (k : Nat) : String :=
  "SYS" ++ toString k ++ (match call with | some c => c | none => "")

/-- Embedded statements (`ast.py` lines 130-185).  The Python statement is the
tuple `(statement, label | None)`; a labelled statement is embedded as
`labeled n s` and an unlabelled one as the bare constructor.  The list-valued
`BeginEndStatement` is embedded as a right-nested sequence `seqCons`/`seqNil`
(the generator folds over the list in order); the `RepeatStatement` body —
a list which the source wraps as `(statement[0].body, None)` before
generating — is carried as its sequence-encoded statement.  `CallableCall`
and `CaseStatement` are outside this embedding. -/
inductive Stmt where
  | assign (lhsName : String) (lhsCallableScope : Bool) (lhsOffset : Int) (rhs : Expression)
  | goto (n : Int)
  | seqNil
  | seqCons (s rest : Stmt)
  | ifS (cond : Expression) (whenTrue whenFalse : Stmt)
  | repeatS (cond : Expression) (body : Stmt)
  | whileS (cond : Expression) (body : Stmt)
  | forS (vName : String) (vCallableScope : Bool) (vOffset : Int)
      (ini fin : Expression) (down : Bool) (body : Stmt)
  | labeled (n : Int) (s : Stmt)
deriving DecidableEq, Repr

/-- `generate_statement_assembly` (lines 409-509) on the embedded statements,
threading the label-generator counter (`LabelGenerator.new` increments and
returns `SYS<count>`): returns the emitted elements and the new counter.
The FOR case (lines 476-509) allocates the start and end labels, emits the
`FOR` comment, the final then the initial expression, the start label,
`DUP 1`, the store into the control variable, `COPY 2`,
`SUPEQ`(to)/`INFEQ`(downto), `JZ end`, the body, `PUSHI 1`,
`ADD`(to)/`SUB`(downto), `JUMP start`, then the source's line 507 emits a
dead `JZ start`, then the end label and `POP 2`. -/
def generate_statement_assembly (call : Option String) :
    Nat → Stmt → List EWVMElement × Nat
  | c, .labeled n s =>
    let r := generate_statement_assembly call c s
    (.label (userLabel call n) :: r.1, r.2)
  | c, .assign name cs off rhs =>
    (.comment (name ++ " := ...") ::
      (generate_expression_assembly rhs ++
       [.stmt ⟨if cs then "STOREL" else "STOREG", [.int off]⟩]), c)
  | c, .goto n =>
    ([.comment ("GOTO " ++ toString n),
      .stmt ⟨"JUMP", [.label (userLabel call n)]⟩], c)
  | c, .seqNil => ([], c)
  | c, .seqCons s rest =>
    let r1 := generate_statement_assembly call c s
    let r2 := generate_statement_assembly call r1.2 rest
    (r1.1 ++ r2.1, r2.2)
  | c, .ifS cond whenTrue whenFalse =>
    let r1 := generate_statement_assembly call (c + 2) whenTrue
    let r2 := generate_statement_assembly call r1.2 whenFalse
    (.comment "IF" ::
      (generate_expression_assembly cond ++
       [.stmt ⟨"JZ", [.label (sysLabel call (c + 1))]⟩] ++
       r1.1 ++
       [.stmt ⟨"JUMP", [.label (sysLabel call (c + 2))]⟩,
        .label (sysLabel call (c + 1))] ++
       r2.1 ++
       [.label (sysLabel call (c + 2))]), r2.2)
  | c, .repeatS cond body =>
    let r := generate_statement_assembly call (c + 1) body
    (.comment "REPEAT" :: .label (sysLabel call (c + 1)) ::
      (r.1 ++ generate_expression_assembly cond ++
       [.stmt ⟨"JZ", [.label (sysLabel call (c + 1))]⟩]), r.2)
  | c, .whileS cond body =>
    let r := generate_statement_assembly call (c + 2) body
    (.comment "WHILE" :: .label (sysLabel call (c + 1)) ::
      (generate_expression_assembly cond ++
       [.stmt ⟨"JZ", [.label (sysLabel call (c + 2))]⟩] ++
       r.1 ++
       [.stmt ⟨"JUMP", [.label (sysLabel call (c + 1))]⟩,
        .label (sysLabel call (c + 2))]), r.2)
  | c, .forS _ vCs vOff ini fin down body =>
    let r := generate_statement_assembly call (c + 2) body
    (.comment "FOR" ::
      (generate_expression_assembly fin ++
       generate_expression_assembly ini ++
       [.label (sysLabel call (c + 1)),
        .stmt ⟨"DUP", [.int 1]⟩,
        .stmt ⟨if vCs then "STOREL" else "STOREG", [.int vOff]⟩,
        .stmt ⟨"COPY", [.int 2]⟩,
        .stmt ⟨if down then "INFEQ" else "SUPEQ", []⟩,
        .stmt ⟨"JZ", [.label (sysLabel call (c + 2))]⟩] ++
       r.1 ++
       [.stmt ⟨"PUSHI", [.int 1]⟩,
        .stmt ⟨if down then "SUB" else "ADD", []⟩,
        .stmt ⟨"JUMP", [.label (sysLabel call (c + 1))]⟩,
        .stmt ⟨"JZ", [.label (sysLabel call (c + 1))]⟩,
        .label (sysLabel call (c + 2)),
        .stmt ⟨"POP", [.int 2]⟩]), r.2)

/-- C1 (amended): for every FOR statement the code generator emits exactly
the `FOR` comment, the code for the final expression, the code for the
initial expression, the start label, `DUP 1`, a store into the control
variable, `COPY 2`, `SUPEQ` (direction `to`) or `INFEQ` (`downto`),
`JZ end`, the body's code, `PUSHI 1`, `ADD` (`to`) or `SUB` (`downto`),
`JUMP start`, then one dead instruction `JZ start` (line 507 of `ewvm.py`),
and only then the end label followed by `POP 2`. -/
theorem for_codegen (call : Option String) (c : Nat) (vName : String)
    (vCs : Bool) (vOff : Int) (ini fin : Expression) (down : Bool) (body : Stmt) :
    (generate_statement_assembly call c (.forS vName vCs vOff ini fin down body)).1 =
      .comment "FOR" ::
      (generate_expression_assembly fin ++
       generate_expression_assembly ini ++
       [.label (sysLabel call (c + 1)),
        .stmt ⟨"DUP", [.int 1]⟩,
        .stmt ⟨if vCs then "STOREL" else "STOREG", [.int vOff]⟩,
        .stmt ⟨"COPY", [.int 2]⟩,
        .stmt ⟨if down then "INFEQ" else "SUPEQ", []⟩,
        .stmt ⟨"JZ", [.label (sysLabel call (c + 2))]⟩] ++
       (generate_statement_assembly call (c + 2) body).1 ++
       [.stmt ⟨"PUSHI", [.int 1]⟩,
        .stmt ⟨if down then "SUB" else "ADD", []⟩,
        .stmt ⟨"JUMP", [.label (sysLabel call (c + 1))]⟩,
        .stmt ⟨"JZ", [.label (sysLabel call (c + 1))]⟩,
        .label (sysLabel call (c + 2)),
        .stmt ⟨"POP", [.int 2]⟩]) := by
  rfl

/-- C1, counterexample to the claim as stated: for the concrete statement
`for i := 1 to 10 do begin end` (control variable at local offset 0) the
element immediately after `JUMP start` is the dead `JZ start`, not the end
label, contradicting "no other instruction between `JUMP start` and the end
label". -/
theorem for_claim_counterexample :
    ((generate_statement_assembly none 0
        (.forS "i" true 0 (.const (.int 1) (.builtin .INTEGER))
          (.const (.int 10) (.builtin .INTEGER)) false .seqNil)).1 =
      [.comment "FOR",
       .stmt ⟨"PUSHI", [.int 10]⟩,
       .stmt ⟨"PUSHI", [.int 1]⟩,
       .label "SYS1",
       .stmt ⟨"DUP", [.int 1]⟩,
       .stmt ⟨"STOREL", [.int 0]⟩,
       .stmt ⟨"COPY", [.int 2]⟩,
       .stmt ⟨"SUPEQ", []⟩,
       .stmt ⟨"JZ", [.label "SYS2"]⟩,
       .stmt ⟨"PUSHI", [.int 1]⟩,
       .stmt ⟨"ADD", []⟩,
       .stmt ⟨"JUMP", [.label "SYS1"]⟩,
       .stmt ⟨"JZ", [.label "SYS1"]⟩,
       .label "SYS2",
       .stmt ⟨"POP", [.int 2]⟩]) ∧
    ((generate_statement_assembly none 0
        (.forS "i" true 0 (.const (.int 1) (.builtin .INTEGER))
          (.const (.int 10) (.builtin .INTEGER)) false .seqNil)).1.get? 12 ≠
      some (.label "SYS2")) := by
  constructor
  · rfl
  · decide

/-! ## Symbol table (`symboltable.py`) -/

/-- `SymbolValue = LabelDefinition | CallableDefinition | ConstantDefinition |
TypeDefinition | VariableDefinition`.  Callable parameters and return value
are `(name, type, callable_scope)` triples; callable bodies (always the empty
`Block` in the initial scope) are not inspected by `query`/`add` and are
omitted. -/
inductive SymbolValue where
  | labelDef (name : Int)
  | constantDef (name : String) (value : ConstantValue)
  | typeDef (name : String) (value : TypeValue)
  | variableDef (name : String) (varType : TypeValue) (callableScope : Bool)
  | callableDef (name : String) (parameters : Option (List (String × TypeValue × Bool)))
      (ret : Option (String × TypeValue × Bool))
deriving DecidableEq, Repr

/-- The name `add` uses (line 198): `str(value.name)` for a label definition,
`value.name` otherwise. -/
def symbolName : SymbolValue → String
  | .labelDef n => toString n
  | .constantDef n _ => n
  | .typeDef n _ => n
  | .variableDef n _ _ => n
  | .callableDef n _ _ => n

/-- One scope: a Python `dict[str, SymbolValue]` as an insertion-ordered
association list with unique keys. -/
abbrev Scope := List (String × SymbolValue)

/-- The scope stack.  Python keeps the top scope at `scopes[-1]` and queries
`reversed(self.scopes)`; here the head of the list is the top scope and the
global scope is last. -/
abbrev SymbolTable := List Scope

/-- Python `str.lower()` (the identifiers involved are ASCII), mapped over
the characters; `String.toLower` itself does not reduce inside the kernel. -/
def pyLower (s : String) : String := String.mk (s.data.map Char.toLower)

/-- `dict.get` on a scope. -/
def scopeGet (s : Scope) (k : String) : Option SymbolValue :=
  (s.find? (fun p => p.1 == k)).map (fun p => p.2)

/-- Python `dict[key] = value`: overwrite in place if the key exists, else
append in insertion order. -/
def scopeSet (s : Scope) (k : String) (v : SymbolValue) : Scope :=
  if s.any (fun p => p.1 == k) then s.map (fun p => if p.1 == k then (k, v) else p)
  else s ++ [(k, v)]

def queryAux : Nat → List Scope → String → Option (SymbolValue × Bool)
  | _, [], _ => none
  | i, s :: rest, k =>
    match scopeGet s k with
    | some v => some (v, decide (i = 0))
    | none => queryAux (i + 1) rest k

/-- `SymbolTable.query` (lines 74-96) without the error/printing path: lowers
the identifier and scans the scopes top-down, flagging whether the match was
in the top scope (`i == 0`). -/
def query (t : SymbolTable) (identifier : String) : Option (SymbolValue × Bool) :=
  queryAux 0 t (pyLower identifier)

/-- Write a definition into the top scope (`self.scopes[-1][name.lower()] =
value`); the empty stack is unreachable (the table always holds at least the
global scope). -/
def setTop (t : SymbolTable) (k : String) (v : SymbolValue) : SymbolTable :=
  match t with
  | [] => []
  | s :: rest => scopeSet s k v :: rest

/-- `SymbolTable.add` (lines 197-221): query the (case-insensitively
compared) name; if found in the top scope raise `SymbolTableError` before
touching any state; if found deeper, warn about shadowing and insert; else
insert. -/
def add (t : SymbolTable) (v : SymbolValue) : Except Unit SymbolTable :=
  match query t (symbolName v) with
  | some (_, true) => .error ()
  | some (_, false) => .ok (setTop t (pyLower (symbolName v)) v)
  | none => .ok (setTop t (pyLower (symbolName v)) v)

/-- The initial global scope (`SymbolTable.__init__`, lines 40-66), in source
order.  `maxint` is `1 << 16 - 1`, which by Python precedence is
`1 << (16 - 1) = 32768`; the `string` entry is a `TypeDefinition` whose name
field is `'char'` in the source. -/
def initialSymbolTable : SymbolTable :=
  [[("integer", .typeDef "integer" (.builtin .INTEGER)),
    ("real", .typeDef "real" (.builtin .REAL)),
    ("boolean", .typeDef "boolean" (.builtin .BOOLEAN)),
    ("char", .typeDef "char" (.builtin .CHAR)),
    ("true", .constantDef "true" (.bool true)),
    ("false", .constantDef "false" (.bool false)),
    ("maxint", .constantDef "maxint" (.int ((1 <<< (16 - 1) : Nat) : Int))),
    ("write", .callableDef "write" none none),
    ("writeln", .callableDef "writeln" none none),
    ("read", .callableDef "read" none none),
    ("readln", .callableDef "readln" none none),
    ("string", .typeDef "char" (.builtin .STRING)),
    ("length", .callableDef "length"
      (some [("str", .builtin .STRING, true)])
      (some ("length", .builtin .INTEGER, true)))]]

/-- C2, counterexample to the claim as stated: `maxint` is pre-installed in
the global scope with the value `32768`, which is not `2^15 − 1 = 32767`. -/
theorem maxint_counterexample :
    query initialSymbolTable "maxint" =
      some (.constantDef "maxint" (.int 32768), true) ∧
    (32768 : Int) ≠ 2 ^ 15 - 1 := by
  constructor
  · rfl
  · decide

/-- C2 (amended): the built-in constant `maxint` pre-installed in the global
scope has the value `2^15 = 32768` (the source's `1 << 16 - 1` parses as
`1 << 15`). -/
theorem maxint_value :
    query initialSymbolTable "maxint" =
      some (.constantDef "maxint" (.int (2 ^ 15)), true) := by
  rfl

/-- C7: adding a definition whose (case-insensitively compared) name is
already present in the top scope raises `SymbolTableError`, and the table
state is unchanged — the raise happens before any mutation, so a subsequent
query for that name still returns the first definition. -/
theorem add_duplicate_raises (t : SymbolTable) (v d : SymbolValue)
    (h : query t (symbolName v) = some (d, true)) :
    add t v = .error () ∧ query t (symbolName v) = some (d, true) := by
  refine ⟨?_, h⟩
  rw [add, h]

/-- The table after adding `TypeDefinition("MyType", INTEGER)` to a fresh
symbol table (the scenario of the specification's symbol-table test). -/
def mytypeTable : SymbolTable :=
  setTop initialSymbolTable "mytype" (.typeDef "MyType" (.builtin .INTEGER))

/-- Witness for `add_duplicate_raises`: after adding
`TypeDefinition("MyType", INTEGER)`, a second `add` of
`TypeDefinition("MyType", REAL)` in the same scope raises and the query
still returns the first definition. -/
theorem add_duplicate_raises_witness :
    add initialSymbolTable (.typeDef "MyType" (.builtin .INTEGER)) = .ok mytypeTable ∧
    add mytypeTable (.typeDef "MyType" (.builtin .REAL)) = .error () ∧
    query mytypeTable "MyType" = some (.typeDef "MyType" (.builtin .INTEGER), true) := by
  refine ⟨rfl, ?_, rfl⟩
  exact (add_duplicate_raises mytypeTable (.typeDef "MyType" (.builtin .REAL))
    (.typeDef "MyType" (.builtin .INTEGER)) (by rfl)).1

/-! ## AST optimizer traversal (`optimizer.py`, `__replace_expressions`) -/

/-- Python-value universe for the trees traversed by `__replace_expressions`
(`optimizer.py` lines 26-52): `leaf` is any non-tuple non-dataclass value,
`op` a `UnaryOperation`/`BinaryOperation` dataclass, `pair` a 2-tuple (a
statement tuple `(statement, label)` or a non-operation expression tuple
`(value, type)`, second component kept abstract), and `triple` the 3-tuple
that line 39 builds: `(recurse(subtree[0]), subtree[1], visited)`.  The
`visited` argument of a traversal — in the source a `set` of object ids
created freshly by each `optimize_ast` call, whose contents after a run
record the objects that this particular run visited — is abstracted as an
opaque run marker `Nat`: distinct runs carry distinct markers, mirroring
that the sets embedded by two distinct runs differ in content (the second
run visits, among others, the tuples freshly built by the first).  The
id-based memoization can never fire on the tree below (all nodes are
distinct objects), so it is not modelled. -/
inductive PyNode where
  | leaf (n : Int)
  | op (sub : PyNode)
  | pair (fst : PyNode) (snd : Int)
  | triple (fst : PyNode) (snd : Int) (visited : Nat)
deriving DecidableEq, Repr

/-- `isinstance(subtree[0], (UnaryOperation, BinaryOperation))`. -/
def isOpNode : PyNode → Bool
  | .op _ => true
  | _ => false

/-- `__replace_expressions(subtree, replacer, visited)`: a tuple whose first
element is an operation goes to the replacer; any other tuple is rebuilt as
the 3-tuple `(recurse(subtree[0]), subtree[1], visited)` (line 39 — note the
`visited` set leaking into the rebuilt tuple, and a pre-existing third
component being overwritten); a dataclass recurses into its fields; leaves
are returned unchanged. -/
def replaceExpressions (replacer : PyNode → PyNode) (visited : Nat) : PyNode → PyNode
  | .leaf n => .leaf n
  | .op s => .op (replaceExpressions replacer visited s)
  | .pair f s =>
    if isOpNode f then replacer (.pair f s)
    else .triple (replaceExpressions replacer visited f) s visited
  | .triple f s v =>
    if isOpNode f then replacer (.triple f s v)
    else .triple (replaceExpressions replacer visited f) s visited

/-- C5 (the code, not the claim): `__replace_expressions` rebuilds every
non-operation tuple with the current run's `visited` set as a third
component, so a second `optimize_ast` run replaces the first run's set with
its own and the tree after run two is not structurally equal to the tree
after run one.  Evaluated at the failing input: a program whose body holds
one statement tuple (modelled `pair (leaf 0) 0`). -/
theorem replace_expressions_not_idempotent (replacer : PyNode → PyNode)
    (v1 v2 : Nat) (hne : v1 ≠ v2) :
    replaceExpressions replacer v2 (replaceExpressions replacer v1 (.pair (.leaf 0) 0)) ≠
      replaceExpressions replacer v1 (.pair (.leaf 0) 0) := by
  simp only [replaceExpressions, isOpNode, Bool.false_eq_true, if_false, ne_eq,
    PyNode.triple.injEq]
  intro h
  exact hne h.2.2.symm

/-- Witness for `replace_expressions_not_idempotent` at run markers 1 and 2. -/
theorem replace_expressions_not_idempotent_witness :
    replaceExpressions id 2 (replaceExpressions id 1 (.pair (.leaf 0) 0)) ≠
      replaceExpressions id 1 (.pair (.leaf 0) 0) :=
  replace_expressions_not_idempotent id 1 2 (by decide)

end PLPC
